import Mathlib

/-!
Verification of the trace pattern-mining core of the datamineresearch
repository (gem5-snoop variant): the pattern matcher
`remove_pattern_from_trace`, the binary pattern remover
`remove_binary_pattern`, the causality-graph builder
`construct_causality_graph`, the causal-pair deriver `find_causal_pairs`,
the decomposition search `find_binary_pattern` / `explore_node`, the
N-gram scorer `find_acceptance_ratios`, and the loaders
`extract_groups_from_msg_file` / `read_trace_from_file`.

Traces are lists of `Int` (Python lists of message indices).  Python sets
are modelled as lists with insert-if-absent (membership is the observable).
Python floats are modelled as `ℚ` (all ratios arising here are exact small
rationals).  Python exceptions are modelled with `Except String`.
-/

/-- Generic foldl invariant-preservation helper. -/
theorem foldl_preserves {α β : Type} (P : α → Prop) (f : α → β → α)
    (step : ∀ a b, P a → P (f a b)) :
    ∀ (l : List β) (a : α), P a → P (l.foldl f a) := by
  intro l
  induction l with
  | nil => intro a h; exact h
  | cons x xs ih => intro a h; exact ih (f a x) (step a x h)

/-- `[trace[i] for i in range(len(trace)) if i not in toRemove]`:
the final filtering comprehension shared by `remove_pattern_from_trace`
and `remove_binary_pattern`. -/
def removeIndices (trace : List Int) (toRemove : List Nat) : List Int :=
  (trace.enum.filter (fun p => decide (p.1 ∉ toRemove))).map Prod.snd

/-- Dropping a set of positions always yields a subsequence. -/
theorem removeIndices_sublist (trace : List Int) (toRemove : List Nat) :
    (removeIndices trace toRemove).Sublist trace := by
  have h1 : (trace.enum.filter (fun p => decide (p.1 ∉ toRemove))).Sublist trace.enum :=
    List.filter_sublist _
  have h2 := h1.map Prod.snd
  rwa [List.enum_map_snd] at h2

/-- Dropping no positions is the identity. -/
theorem removeIndices_nil (trace : List Int) :
    removeIndices trace [] = trace := by
  unfold removeIndices
  rw [List.filter_eq_self.mpr]
  · exact List.enum_map_snd trace
  · intro a _
    simp

/-- Dropping at least one valid position strictly shrinks the trace. -/
theorem removeIndices_length_lt (trace : List Int) (toRemove : List Nat)
    (i : Nat) (hi : i < trace.length) (hmem : i ∈ toRemove) :
    (removeIndices trace toRemove).length < trace.length := by
  unfold removeIndices
  rw [List.length_map]
  have hx : (i, trace.getD i 0) ∈ trace.enum := by
    rw [List.mem_enum_iff_getElem?]
    refine List.getElem?_eq_some_iff.mpr ⟨hi, ?_⟩
    exact (List.getD_eq_getElem trace 0 hi).symm
  have : (List.filter (fun p => decide (p.1 ∉ toRemove)) trace.enum).length <
      trace.enum.length := by
    rw [List.length_filter_lt_length_iff_exists]
    refine ⟨(i, trace.getD i 0), hx, ?_⟩
    simp [hmem]
  simpa [List.enum_length] using this

/-- Bucket of a value: the positions where it occurs in the trace,
in increasing order (Python: one left-to-right scan appending indices). -/
def positionsOf (trace : List Int) (v : Int) : List Nat :=
  (List.range trace.length).filter (fun i => decide (trace.getD i 0 = v))

theorem positionsOf_pairwise (trace : List Int) (v : Int) :
    (positionsOf trace v).Pairwise (· < ·) :=
  (List.pairwise_lt_range trace.length).filter _

theorem mem_positionsOf {trace : List Int} {v : Int} {i : Nat} :
    i ∈ positionsOf trace v ↔ i < trace.length ∧ trace.getD i 0 = v := by
  unfold positionsOf
  rw [List.mem_filter, List.mem_range]
  simp

/-- Entries of a strictly increasing list are monotone in the index. -/
theorem pairwise_lt_getD_mono {l : List Nat} (hp : l.Pairwise (· < ·))
    {i j : Nat} (hij : i ≤ j) (hj : j < l.length) :
    l.getD i 0 ≤ l.getD j 0 := by
  rcases Nat.lt_or_ge i j with hlt | hge
  · have hi : i < l.length := Nat.lt_trans hlt hj
    rw [List.getD_eq_getElem l 0 hi, List.getD_eq_getElem l 0 hj]
    exact Nat.le_of_lt (List.Sorted.rel_get_of_lt hp (by exact hlt))
  · have : i = j := Nat.le_antisymm hij hge
    subst this
    exact Nat.le_refl _

/-!
## Pattern Matcher: `remove_pattern_from_trace` (functions.py)

The Python loop
`while pointers[j] < len(bucket) and bucket[pointers[j]] <= last: pointers[j] += 1`
is embedded with explicit fuel (`bucket.length - ptr` steps always suffice)
so that the definition stays kernel-evaluable.
-/

def advanceAux (bucket : List Nat) (last : Nat) : Nat → Nat → Nat
  | 0, ptr => ptr
  | fuel + 1, ptr =>
    if ptr < bucket.length ∧ bucket.getD ptr 0 ≤ last then
      advanceAux bucket last fuel (ptr + 1)
    else ptr

/-- Advance the slot cursor past bucket entries `<= last`. -/
def advance (bucket : List Nat) (last : Nat) (ptr : Nat) : Nat :=
  advanceAux bucket last (bucket.length - ptr) ptr

theorem advanceAux_ge (bucket : List Nat) (last : Nat) :
    ∀ fuel ptr, ptr ≤ advanceAux bucket last fuel ptr := by
  intro fuel
  induction fuel with
  | zero => intro ptr; exact Nat.le_refl _
  | succ n ih =>
    intro ptr
    unfold advanceAux
    split
    · exact Nat.le_trans (Nat.le_succ ptr) (ih (ptr + 1))
    · exact Nat.le_refl _

/-- If fuel is sufficient, the cursor stops either past the bucket or at an
entry larger than `last`. -/
theorem advanceAux_stop (bucket : List Nat) (last : Nat) :
    ∀ fuel ptr, bucket.length ≤ fuel + ptr →
      advanceAux bucket last fuel ptr < bucket.length →
      last < bucket.getD (advanceAux bucket last fuel ptr) 0 := by
  intro fuel
  induction fuel with
  | zero =>
    intro ptr hfu hlt
    unfold advanceAux at hlt
    omega
  | succ n ih =>
    intro ptr hfu hlt
    unfold advanceAux at hlt ⊢
    split
    · rename_i h
      rw [if_pos h] at hlt
      exact ih (ptr + 1) (by omega) hlt
    · rename_i h
      rw [if_neg h] at hlt
      push_neg at h
      exact h hlt

/-- The cursor never jumps past an entry larger than `last`. -/
theorem advanceAux_min (bucket : List Nat) (last : Nat) :
    ∀ fuel ptr k, ptr ≤ k → k < bucket.length → last < bucket.getD k 0 →
      advanceAux bucket last fuel ptr ≤ k := by
  intro fuel
  induction fuel with
  | zero => intro ptr k hk _ _; exact hk
  | succ n ih =>
    intro ptr k hk hklen hkval
    unfold advanceAux
    split
    · rename_i h
      refine ih (ptr + 1) k ?_ hklen hkval
      rcases Nat.lt_or_ge ptr k with hlt | hge
      · omega
      · have : ptr = k := Nat.le_antisymm hk hge
        subst this
        omega
    · exact hk

theorem advance_ge (bucket : List Nat) (last ptr : Nat) :
    ptr ≤ advance bucket last ptr :=
  advanceAux_ge bucket last _ ptr

theorem advance_stop (bucket : List Nat) (last ptr : Nat)
    (h : advance bucket last ptr < bucket.length) :
    last < bucket.getD (advance bucket last ptr) 0 := by
  refine advanceAux_stop bucket last _ ptr ?_ h
  omega

theorem advance_min (bucket : List Nat) (last ptr k : Nat)
    (hk : ptr ≤ k) (hklen : k < bucket.length) (hkval : last < bucket.getD k 0) :
    advance bucket last ptr ≤ k :=
  advanceAux_min bucket last _ ptr k hk hklen hkval

/-- The inner slot loop (`for j in range(1, len(pattern))`) of
`remove_pattern_from_trace`: one cursor per slot, shared value buckets.
Returns the updated cursors and, on success, the chosen positions.
On failure the cursors of the slots after the failing one are untouched
(the Python `break` does not roll anything back). -/
def runSlots (trace : List Int) : List Int → List Nat → Nat → List Nat × Option (List Nat)
  | [], ptrs, _ => (ptrs, some [])
  | _ :: _, [], _ => ([], none)
  | v :: vs, ptr :: ptrs, last =>
    let bucket := positionsOf trace v
    let r := advance bucket last ptr
    if r < bucket.length then
      let pos := bucket.getD r 0
      let rest := runSlots trace vs ptrs pos
      ((r + 1) :: rest.1, Option.map (fun l => pos :: l) rest.2)
    else
      (r :: ptrs, none)

/-- The outer loop over the first bucket
(`for index in buckets[pattern[0]]`), accumulating the removal set. -/
def outerLoop (trace : List Int) (tailPattern : List Int) :
    List Nat → List Nat → List Nat → List Nat
  | [], _, acc => acc
  | p :: rest, ptrs, acc =>
    match runSlots trace tailPattern ptrs p with
    | (ptrs2, some poss) => outerLoop trace tailPattern rest ptrs2 (acc ++ p :: poss)
    | (ptrs2, none) => outerLoop trace tailPattern rest ptrs2 acc

/-- `remove_pattern_from_trace(trace, pattern)` (functions.py lines 292-343).
An empty pattern raises in Python (`buckets[pattern[0]]`); callers only
ever pass length >= 2, and we return the trace unchanged in that case. -/
def remove_pattern_from_trace (trace : List Int) (pattern : List Int) : List Int :=
  match pattern with
  | [] => trace
  | p0 :: rest =>
    let toRemove := outerLoop trace rest (positionsOf trace p0)
      (List.replicate rest.length 0) []
    removeIndices trace toRemove

theorem chain_lt_of_head_le {p q : Nat} {l : List Nat}
    (h : List.Chain (· < ·) q l) (hpq : p ≤ q) : List.Chain (· < ·) p l := by
  cases l with
  | nil => exact List.Chain.nil
  | cons x xs =>
    rw [List.chain_cons] at h ⊢
    exact ⟨Nat.lt_of_le_of_lt hpq h.1, h.2⟩

/-- Every successful slot-loop run returns strictly increasing positions
past `last` whose trace values spell out the slot values: a genuine
order-preserving occurrence.  This holds for arbitrary cursor states. -/
theorem runSlots_some_spec (trace : List Int) :
    ∀ (vs : List Int) (ptrs : List Nat) (last : Nat) (poss : List Nat),
      (runSlots trace vs ptrs last).2 = some poss →
      List.Chain (· < ·) last poss ∧
      List.Forall₂ (fun v p => p < trace.length ∧ trace.getD p 0 = v) vs poss := by
  intro vs
  induction vs with
  | nil =>
    intro ptrs last poss h
    simp only [runSlots, Option.some_inj] at h
    subst h
    exact ⟨List.Chain.nil, List.Forall₂.nil⟩
  | cons v vs ih =>
    intro ptrs last poss h
    cases ptrs with
    | nil => simp [runSlots] at h
    | cons ptr ptrs =>
      simp only [runSlots] at h
      split at h
      · rename_i hr
        dsimp only at h
        cases hres : (runSlots trace vs ptrs
            ((positionsOf trace v).getD (advance (positionsOf trace v) last ptr) 0)).2 with
        | none => rw [hres] at h; simp at h
        | some poss2 =>
          rw [hres] at h
          simp only [Option.map_some', Option.some_inj] at h
          obtain ⟨hchain, hforall⟩ := ih ptrs _ poss2 hres
          subst h
          have hlast : last < (positionsOf trace v).getD
              (advance (positionsOf trace v) last ptr) 0 := advance_stop _ _ _ hr
          have hmem : (positionsOf trace v).getD
              (advance (positionsOf trace v) last ptr) 0 ∈ positionsOf trace v := by
            rw [List.getD_eq_getElem _ 0 hr]
            exact List.getElem_mem hr
          rw [mem_positionsOf] at hmem
          exact ⟨List.chain_cons.mpr ⟨hlast, hchain⟩, List.Forall₂.cons hmem hforall⟩
      · rename_i hr
        dsimp only at h
        simp at h

/-- Strictly increasing valid positions whose values spell out `vs`
witness `vs` as a subsequence of the trace suffix from `k`. -/
theorem occ_sublist_drop (trace : List Int) :
    ∀ (vs : List Int) (qs : List Nat) (k : Nat),
      qs.Pairwise (· < ·) → (∀ q ∈ qs, k ≤ q) →
      List.Forall₂ (fun v p => p < trace.length ∧ trace.getD p 0 = v) vs qs →
      vs.Sublist (trace.drop k) := by
  intro vs
  induction vs with
  | nil =>
    intro qs k _ _ hf
    cases hf
    exact List.nil_sublist _
  | cons v vs ih =>
    intro qs k hpw hk hf
    cases hf with
    | cons hq hf =>
      rename_i q qs
      have hqlen : q < trace.length := hq.1
      have hqval : trace.getD q 0 = v := hq.2
      have hpw2 := List.pairwise_cons.mp hpw
      have hrec : vs.Sublist (trace.drop (q + 1)) := by
        refine ih qs (q + 1) hpw2.2 ?_ hf
        intro x hx
        exact hpw2.1 x hx
      have hdropq : trace.drop q = trace.getD q 0 :: trace.drop (q + 1) := by
        rw [List.drop_eq_getElem_cons hqlen, List.getD_eq_getElem _ 0 hqlen]
      have hsub1 : (v :: vs).Sublist (trace.drop q) := by
        rw [hdropq, hqval]
        exact hrec.cons₂ v
      have hsub2 : (trace.drop q).Sublist (trace.drop k) := by
        have hkq : k ≤ q := hk q (List.mem_cons_self q qs)
        have : (trace.drop k).drop (q - k) = trace.drop q := by
          rw [List.drop_drop]
          congr 1
          omega
        rw [← this]
        exact List.drop_sublist _ _
      exact hsub1.trans hsub2

/-- From a subsequence occurrence, extract strictly increasing witness
positions. -/
theorem sublist_exists_positions (trace : List Int) :
    ∀ (vs : List Int), vs.Sublist trace →
      ∃ qs, qs.Pairwise (· < ·) ∧
        List.Forall₂ (fun v p => p < trace.length ∧ trace.getD p 0 = v) vs qs := by
  intro vs hsub
  induction hsub with
  | slnil => exact ⟨[], List.Pairwise.nil, List.Forall₂.nil⟩
  | cons a h ih =>
    obtain ⟨qs, hpw, hf⟩ := ih
    refine ⟨qs.map (· + 1), ?_, ?_⟩
    · exact hpw.map _ (fun x y hxy => by omega)
    · clear hpw h
      induction hf with
      | nil => exact List.Forall₂.nil
      | cons hq _ ihf =>
        refine List.Forall₂.cons ?_ ihf
        simp only [List.length_cons, List.getD_cons_succ]
        exact ⟨by omega, hq.2⟩
  | cons₂ a h ih =>
    obtain ⟨qs, hpw, hf⟩ := ih
    refine ⟨0 :: qs.map (· + 1), ?_, ?_⟩
    · rw [List.pairwise_cons]
      constructor
      · intro x hx
        simp only [List.mem_map] at hx
        obtain ⟨y, _, hy⟩ := hx
        omega
      · exact hpw.map _ (fun x y hxy => by omega)
    · refine List.Forall₂.cons ⟨by simp, by simp⟩ ?_
      clear hpw h
      induction hf with
      | nil => exact List.Forall₂.nil
      | cons hq _ ihf =>
        refine List.Forall₂.cons ?_ ihf
        simp only [List.length_cons, List.getD_cons_succ]
        exact ⟨by omega, hq.2⟩

/-- With fresh cursors (all zero), the greedy slot loop succeeds whenever
some strictly increasing occurrence past `last` exists: the classical
greedy-matching argument, each greedy choice staying at or before the
witness position. -/
theorem runSlots_fresh_some (trace : List Int) :
    ∀ (vs : List Int) (last : Nat) (qs : List Nat),
      List.Chain (· < ·) last qs →
      List.Forall₂ (fun v p => p < trace.length ∧ trace.getD p 0 = v) vs qs →
      ∃ poss, (runSlots trace vs (List.replicate vs.length 0) last).2 = some poss := by
  intro vs
  induction vs with
  | nil =>
    intro last qs _ hf
    exact ⟨[], by simp [runSlots]⟩
  | cons v vs ih =>
    intro last qs hchain hf
    cases hf with
    | cons hq hf =>
      rename_i q qs
      obtain ⟨hlastq, hchain2⟩ := List.chain_cons.mp hchain
      have hqmem : q ∈ positionsOf trace v := mem_positionsOf.mpr ⟨hq.1, hq.2⟩
      obtain ⟨iq, hiq⟩ := List.mem_iff_get.mp hqmem
      have hiqD : (positionsOf trace v).getD iq.1 0 = q := by
        rw [List.getD_eq_getElem _ 0 iq.2]
        rw [← hiq]
        simp
      have hrle : advance (positionsOf trace v) last 0 ≤ iq.1 :=
        advance_min _ _ _ _ (Nat.zero_le _) iq.2 (by rw [hiqD]; exact hlastq)
      have hr : advance (positionsOf trace v) last 0 < (positionsOf trace v).length :=
        Nat.lt_of_le_of_lt hrle iq.2
      have hposq : (positionsOf trace v).getD (advance (positionsOf trace v) last 0) 0 ≤ q := by
        rw [← hiqD]
        exact pairwise_lt_getD_mono (positionsOf_pairwise trace v) hrle iq.2
      have hchain3 : List.Chain (· < ·)
          ((positionsOf trace v).getD (advance (positionsOf trace v) last 0) 0) qs :=
        chain_lt_of_head_le hchain2 hposq
      obtain ⟨poss2, hrec⟩ := ih _ qs hchain3 hf
      refine ⟨(positionsOf trace v).getD (advance (positionsOf trace v) last 0) 0 :: poss2, ?_⟩
      rw [show (v :: vs).length = vs.length + 1 from rfl, List.replicate_succ]
      simp only [runSlots]
      rw [if_pos hr]
      dsimp only
      rw [hrec]
      simp

/-- The removal accumulator only ever grows along the outer loop. -/
theorem outerLoop_acc_mono (trace : List Int) (tp : List Int) :
    ∀ (fb : List Nat) (ptrs acc : List Nat) (x : Nat),
      x ∈ acc → x ∈ outerLoop trace tp fb ptrs acc := by
  intro fb
  induction fb with
  | nil => intro ptrs acc x hx; exact hx
  | cons p rest ih =>
    intro ptrs acc x hx
    simp only [outerLoop]
    rcases hres : runSlots trace tp ptrs p with ⟨ptrs2, o⟩
    cases o with
    | some poss =>
      dsimp only
      exact ih ptrs2 _ x (List.mem_append_left _ hx)
    | none =>
      dsimp only
      exact ih ptrs2 acc x hx

/-- If the pattern has no occurrence at all, every attempt fails and the
outer loop leaves the accumulator untouched. -/
theorem outerLoop_no_occ (trace : List Int) (p0 : Int) (tp : List Int)
    (hno : ¬ (p0 :: tp).Sublist trace) :
    ∀ (fb : List Nat), (∀ p ∈ fb, p ∈ positionsOf trace p0) →
      ∀ (ptrs acc : List Nat), outerLoop trace tp fb ptrs acc = acc := by
  intro fb
  induction fb with
  | nil => intro _ ptrs acc; rfl
  | cons p rest ih =>
    intro hfb ptrs acc
    simp only [outerLoop]
    rcases hres : runSlots trace tp ptrs p with ⟨ptrs2, o⟩
    cases o with
    | some poss =>
      exfalso
      have h2 : (runSlots trace tp ptrs p).2 = some poss := by rw [hres]
      obtain ⟨hchain, hforall⟩ := runSlots_some_spec trace tp ptrs p poss h2
      have hp := mem_positionsOf.mp (hfb p (List.mem_cons_self p rest))
      have hpw : (p :: poss).Pairwise (· < ·) := List.chain_iff_pairwise.mp hchain
      have hsub : (p0 :: tp).Sublist (trace.drop 0) := by
        refine occ_sublist_drop trace (p0 :: tp) (p :: poss) 0 hpw ?_ ?_
        · intro q _; exact Nat.zero_le q
        · exact List.Forall₂.cons hp hforall
      rw [List.drop_zero] at hsub
      exact hno hsub
    | none =>
      dsimp only
      exact ih (fun x hx => hfb x (List.mem_cons_of_mem p hx)) ptrs2 acc

/-- C1: For every trace and pattern of length >= 2, if the pattern occurs
at least once in the trace as an order-preserving subsequence then
`remove_pattern_from_trace` returns a residual strictly shorter than the
input trace; if the pattern has no occurrence, the residual equals the
input trace unchanged. -/
theorem C1_matcher_shrinks_iff_occurrence (trace pattern : List Int)
    (h2 : 2 ≤ pattern.length) :
    (pattern.Sublist trace →
      (remove_pattern_from_trace trace pattern).length < trace.length) ∧
    (¬ pattern.Sublist trace →
      remove_pattern_from_trace trace pattern = trace) := by
  cases pattern with
  | nil => simp at h2
  | cons p0 rest =>
    constructor
    · intro hocc
      obtain ⟨qs, hpw, hf⟩ := sublist_exists_positions trace _ hocc
      cases hf with
      | cons hq0 hfrest =>
        rename_i q0 qrest
        have hq0mem : q0 ∈ positionsOf trace p0 := mem_positionsOf.mpr ⟨hq0.1, hq0.2⟩
        cases hfb : positionsOf trace p0 with
        | nil => rw [hfb] at hq0mem; simp at hq0mem
        | cons f0 fbrest =>
          have hf0q0 : f0 ≤ q0 := by
            have hpwb := positionsOf_pairwise trace p0
            rw [hfb, List.pairwise_cons] at hpwb
            rw [hfb] at hq0mem
            rcases List.mem_cons.mp hq0mem with heq | hmem2
            · omega
            · exact Nat.le_of_lt (hpwb.1 q0 hmem2)
          have hchain0 : List.Chain (· < ·) q0 qrest := List.chain_iff_pairwise.mpr hpw
          have hchainf0 : List.Chain (· < ·) f0 qrest := chain_lt_of_head_le hchain0 hf0q0
          obtain ⟨poss, hposs⟩ := runSlots_fresh_some trace rest f0 qrest hchainf0 hfrest
          simp only [remove_pattern_from_trace]
          rw [hfb]
          rcases hrs : runSlots trace rest (List.replicate rest.length 0) f0 with ⟨ptrs2, o⟩
          rw [hrs] at hposs
          dsimp only at hposs
          subst hposs
          have hstep : outerLoop trace rest (f0 :: fbrest)
              (List.replicate rest.length 0) [] =
              outerLoop trace rest fbrest ptrs2 ([] ++ f0 :: poss) := by
            simp only [outerLoop]
            rw [hrs]
          have hf0mem : f0 ∈ outerLoop trace rest (f0 :: fbrest)
              (List.replicate rest.length 0) [] := by
            rw [hstep]
            exact outerLoop_acc_mono trace rest fbrest ptrs2 _ f0 (by simp)
          have hf0len : f0 < trace.length := by
            have : f0 ∈ positionsOf trace p0 := by
              rw [hfb]
              exact List.mem_cons_self f0 fbrest
            exact (mem_positionsOf.mp this).1
          exact removeIndices_length_lt trace _ f0 hf0len hf0mem
    · intro hno
      simp only [remove_pattern_from_trace]
      rw [outerLoop_no_occ trace p0 rest hno (positionsOf trace p0) (fun p hp => hp)]
      exact removeIndices_nil trace

/-!
## Binary remover: `remove_binary_pattern(pair, trace)`
(binary_patterns copy 2.py, lines 344-377)

The marking pass (`marked_trace`) and the scan are fused: the mark of
position `i` is recomputed from `trace[i]` exactly as the Python marking
loop assigns it.  `firsthalf` is the pending queue of unmatched `pair[0]`
positions, `removeVar` the Python variable `remove` (initialised 0 and
only conditionally overwritten), `toremove` the emitted index list.
`events` is pure instrumentation: one entry `(pending, consumed, bpos)`
per matched pair, recording the pending queue at the moment of the match;
it feeds no other field.  (The incremental `new_trace.append` in the
Python loop is dead code: the comprehension after the loop rebuilds
`new_trace` from `toremove`, which is what `removeIndices` models.) -/

structure BinState where
  firsthalf : List Nat
  removeVar : Nat
  toremove : List Nat
  events : List (List Nat × Nat × Nat)
  deriving DecidableEq, Repr

/-- The value of `marked_trace[i]`: 1 for `pair[0]`, 2 for `pair[1]`,
0 otherwise (the `elif` ordering means `pair[0]` wins when the two
endpoints coincide). -/
def binMark (pair : Int × Int) (v : Int) : Nat :=
  if v == pair.1 then 1 else if v == pair.2 then 2 else 0

def binStep (pair : Int × Int) (st : BinState) (iv : Nat × Int) : BinState :=
  if binMark pair iv.2 == 1 then
    { st with firsthalf := st.firsthalf ++ [iv.1] }
  else if binMark pair iv.2 == 2 ∧ st.firsthalf ≠ [] then
    let popped :=
      if st.firsthalf.headI < iv.1 then (st.firsthalf.headI, st.firsthalf.tail)
      else (st.removeVar, st.firsthalf)
    { firsthalf := popped.2, removeVar := popped.1,
      toremove := st.toremove ++ [popped.1, iv.1],
      events := st.events ++ [(st.firsthalf, popped.1, iv.1)] }
  else st

def binaryFinal (pair : Int × Int) (trace : List Int) : BinState :=
  trace.enum.foldl (binStep pair) ⟨[], 0, [], []⟩

/-- The removal-index list computed by the scan of `remove_binary_pattern`. -/
def binaryToRemove (pair : Int × Int) (trace : List Int) : List Nat :=
  (binaryFinal pair trace).toremove

/-- The per-match events of the scan: pending queue, consumed `a` position,
matched `b` position. -/
def binaryMatchEvents (pair : Int × Int) (trace : List Int) :
    List (List Nat × Nat × Nat) :=
  (binaryFinal pair trace).events

/-- `remove_binary_pattern(pair, trace)`. -/
def remove_binary_pattern (pair : Int × Int) (trace : List Int) : List Int :=
  removeIndices trace (binaryToRemove pair trace)

/-- A match event is well-behaved when the consumed `a`-position is the
earliest (minimum) of the pending queue at that moment. -/
def eventOk (ev : List Nat × Nat × Nat) : Prop :=
  ev.2.1 ∈ ev.1 ∧ ∀ x ∈ ev.1, ev.2.1 ≤ x

/-- Scan invariant of `remove_binary_pattern`: the pending queue holds
strictly increasing positions below the read index, so `pop(0)` always
consumes the earliest pending occurrence. -/
theorem binFold_inv (pair : Int × Int) :
    ∀ (l : List Int) (n : Nat) (st : BinState),
      st.firsthalf.Pairwise (· < ·) →
      (∀ x ∈ st.firsthalf, x < n) →
      (∀ ev ∈ st.events, eventOk ev) →
      ((List.enumFrom n l).foldl (binStep pair) st).firsthalf.Pairwise (· < ·) ∧
      (∀ x ∈ ((List.enumFrom n l).foldl (binStep pair) st).firsthalf, x < n + l.length) ∧
      (∀ ev ∈ ((List.enumFrom n l).foldl (binStep pair) st).events, eventOk ev) := by
  intro l
  induction l with
  | nil =>
    intro n st h1 h2 h3
    refine ⟨h1, ?_, h3⟩
    intro x hx
    have := h2 x hx
    omega
  | cons v l ih =>
    intro n st h1 h2 h3
    rw [List.enumFrom_cons, List.foldl_cons]
    have hstep : (binStep pair st (n, v)).firsthalf.Pairwise (· < ·) ∧
        (∀ x ∈ (binStep pair st (n, v)).firsthalf, x < n + 1) ∧
        (∀ ev ∈ (binStep pair st (n, v)).events, eventOk ev) := by
      simp only [binStep]
      split
      · refine ⟨?_, ?_, h3⟩
        · rw [List.pairwise_append]
          refine ⟨h1, List.pairwise_singleton _ _, ?_⟩
          intro a ha b hb
          rw [List.mem_singleton] at hb
          subst hb
          exact h2 a ha
        · intro x hx
          rcases List.mem_append.mp hx with hx1 | hx2
          · have := h2 x hx1; omega
          · rw [List.mem_singleton] at hx2; omega
      · split
        · rename_i hcond
          cases hfh : st.firsthalf with
          | nil =>
            rw [hfh] at hcond
            exact absurd rfl hcond.2
          | cons f fs =>
            have hfn : f < n := h2 f (by rw [hfh]; exact List.mem_cons_self f fs)
            have hpwfh : (f :: fs).Pairwise (· < ·) := by rw [← hfh]; exact h1
            rw [List.pairwise_cons] at hpwfh
            simp only [List.headI_cons, List.tail_cons]
            rw [if_pos hfn]
            refine ⟨hpwfh.2, ?_, ?_⟩
            · intro x hx
              have hmem : x ∈ st.firsthalf := by rw [hfh]; exact List.mem_cons_of_mem f hx
              have := h2 x hmem
              omega
            · intro ev hev
              rcases List.mem_append.mp hev with hev1 | hev2
              · exact h3 ev hev1
              · rw [List.mem_singleton] at hev2
                subst hev2
                dsimp only [eventOk]
                constructor
                · exact List.mem_cons_self f fs
                · intro x hx
                  rcases List.mem_cons.mp hx with hx1 | hx2
                  · omega
                  · exact Nat.le_of_lt (hpwfh.1 x hx2)
        · refine ⟨h1, ?_, h3⟩
          intro x hx
          have := h2 x hx
          omega
    obtain ⟨s1, s2, s3⟩ := hstep
    have hrest := ih (n + 1) (binStep pair st (n, v)) s1 s2 s3
    refine ⟨hrest.1, ?_, hrest.2.2⟩
    intro x hx
    have := hrest.2.1 x hx
    rw [List.length_cons]
    omega

/-- C3 counterexample: on the trace `[1,1,2]` with pair `(1,2)`, when the
`b` at position 2 is reached both occurrences of `a` (positions 0 and 1)
are pending; the code consumes position 0 (the earliest, `pop(0)`), not
position 1 (the most recently pending), so the pairing discipline is
queue-like (FIFO), not stack-like (LIFO) as the claim states. -/
theorem C3_counterexample_fifo_not_lifo :
    binaryMatchEvents (1, 2) [1, 1, 2] = [([0, 1], 0, 2)] ∧
    binaryToRemove (1, 2) [1, 1, 2] = [0, 2] ∧
    (1 : Nat) ∉ binaryToRemove (1, 2) [1, 1, 2] := by decide

/-- C3 (amended): when `remove_binary_pattern` removes an `(a,b)` pair and
several occurrences of `a` are pending at the moment an occurrence of `b`
is reached, the occurrence of `a` consumed and paired with that `b` is the
EARLIEST pending one (`firsthalf.pop(0)`): a queue-like, first-in
first-out pairing discipline. -/
theorem C3_earliest_pending_consumed (pair : Int × Int) (trace : List Int) :
    ∀ ev ∈ binaryMatchEvents pair trace, ev.2.1 ∈ ev.1 ∧ ∀ x ∈ ev.1, ev.2.1 ≤ x := by
  intro ev hev
  unfold binaryMatchEvents binaryFinal at hev
  rw [List.enum_eq_enumFrom] at hev
  have := binFold_inv pair trace 0 ⟨[], 0, [], []⟩ (List.Pairwise.nil) (by simp) (by simp)
  exact this.2.2 ev hev

/-- Witness for `C3_earliest_pending_consumed` at the concrete event of
pair `(1,2)` on trace `[1,1,2]`. -/
theorem C3_earliest_pending_consumed_witness :
    (0 : Nat) ∈ [0, 1] ∧ ∀ x ∈ [(0 : Nat), 1], (0 : Nat) ≤ x :=
  C3_earliest_pending_consumed (1, 2) [1, 1, 2] ([0, 1], 0, 2) (by decide)

/-- The residual of the general matcher is a subsequence of the input. -/
theorem remove_pattern_from_trace_sublist (trace pattern : List Int) :
    (remove_pattern_from_trace trace pattern).Sublist trace := by
  cases pattern with
  | nil => exact List.Sublist.refl trace
  | cons p0 rest => exact removeIndices_sublist trace _

/-- The residual of the binary remover is a subsequence of the input. -/
theorem remove_binary_pattern_sublist (pair : Int × Int) (trace : List Int) :
    (remove_binary_pattern pair trace).Sublist trace :=
  removeIndices_sublist trace _

/-!
## Causal pairs: `isCausal` and `find_causal_pairs`
(binary_patterns copy 2.py, lines 63-71 and 179-185)

`successors_dict` is modelled as an association list `List (Int × List Int)`
from index to its successor list (the `src`/`dest` entries of the Python
dict are irrelevant to `isCausal` and the search).  The Python result set
is modelled as a list with insert-if-absent; membership is the observable.
-/

/-- `successors_dict.get(n, {}).get('successors', [])`. -/
def lookupSucc (sd : List (Int × List Int)) (n : Int) : List Int :=
  match sd.find? (fun e => e.1 == n) with
  | some e => e.2
  | none => []

/-- `isCausal(node_index1, node_index2, successors_dict)`: true when either
node lists the other as successor — the check is symmetric. -/
def isCausal (node1 node2 : Int) (sd : List (Int × List Int)) : Bool :=
  (lookupSucc sd node1).contains node2 || (lookupSucc sd node2).contains node1

/-- All ordered pairs `(indices[i], indices[j])` with `i < j`, in the order
the double loop of `find_causal_pairs` visits them. -/
def allOrderedPairs : List Int → List (Int × Int)
  | [] => []
  | x :: xs => xs.map (fun y => (x, y)) ++ allOrderedPairs xs

/-- Python `set.add`. -/
def pairInsert (l : List (Int × Int)) (p : Int × Int) : List (Int × Int) :=
  if l.contains p then l else l ++ [p]

/-- One iteration of the double loop of `find_causal_pairs`: try both
orientations of the unordered pair `ij`. -/
def fcpStep (sd : List (Int × List Int)) (acc : List (Int × Int))
    (ij : Int × Int) : List (Int × Int) :=
  let acc1 := if isCausal ij.1 ij.2 sd then pairInsert acc (ij.1, ij.2) else acc
  if isCausal ij.2 ij.1 sd then pairInsert acc1 (ij.2, ij.1) else acc1

/-- `find_causal_pairs(indices, successors_dict)`. -/
def find_causal_pairs (indices : List Int) (sd : List (Int × List Int)) :
    List (Int × Int) :=
  (allOrderedPairs indices).foldl (fcpStep sd) []

theorem mem_pairInsert {l : List (Int × Int)} {q p : Int × Int}
    (h : p ∈ pairInsert l q) : p ∈ l ∨ p = q := by
  unfold pairInsert at h
  split at h
  · exact Or.inl h
  · rcases List.mem_append.mp h with h1 | h2
    · exact Or.inl h1
    · rw [List.mem_singleton] at h2
      exact Or.inr h2

theorem isCausal_spec {a b : Int} {sd : List (Int × List Int)}
    (h : isCausal a b sd = true) :
    b ∈ lookupSucc sd a ∨ a ∈ lookupSucc sd b := by
  unfold isCausal at h
  rw [Bool.or_eq_true] at h
  rcases h with h | h
  · left; exact List.mem_of_elem_eq_true h
  · right; exact List.mem_of_elem_eq_true h

/-- C4 counterexample: with `succ(1) = [2]`, `succ(2) = []`, the deriver
emits the ordered pair `(2, 1)` even though `1 ∉ succ(2)` — `isCausal`
is symmetric, so pairs are emitted in both directions whenever either
direction of the successor relation holds. -/
theorem C4_counterexample_reverse_pair :
    ((2 : Int), (1 : Int)) ∈ find_causal_pairs [1, 2] [(1, [2]), (2, [])] ∧
    (1 : Int) ∉ lookupSucc [((1 : Int), [(2 : Int)]), (2, [])] 2 := by decide

/-- C4 (amended): every ordered pair `(a, b)` returned by
`find_causal_pairs` satisfies `b ∈ succ(a)` OR `a ∈ succ(b)`: the two
indices are linked by the successor relation in at least one direction,
but not necessarily in the direction of the pair. -/
theorem C4_pairs_causally_linked (indices : List Int)
    (sd : List (Int × List Int)) (a b : Int)
    (h : (a, b) ∈ find_causal_pairs indices sd) :
    b ∈ lookupSucc sd a ∨ a ∈ lookupSucc sd b := by
  have hfold : ∀ p ∈ find_causal_pairs indices sd,
      p.2 ∈ lookupSucc sd p.1 ∨ p.1 ∈ lookupSucc sd p.2 := by
    unfold find_causal_pairs
    have hstep : ∀ (acc : List (Int × Int)) (ij : Int × Int),
        (∀ p ∈ acc, p.2 ∈ lookupSucc sd p.1 ∨ p.1 ∈ lookupSucc sd p.2) →
        ∀ p ∈ fcpStep sd acc ij,
          p.2 ∈ lookupSucc sd p.1 ∨ p.1 ∈ lookupSucc sd p.2 := by
      intro acc ij hacc p hp
      simp only [fcpStep] at hp
      have hacc1 : ∀ q ∈ (if isCausal ij.1 ij.2 sd then pairInsert acc (ij.1, ij.2) else acc),
          q.2 ∈ lookupSucc sd q.1 ∨ q.1 ∈ lookupSucc sd q.2 := by
        intro q hq
        split at hq
        · rename_i hc
          rcases mem_pairInsert hq with h1 | h2
          · exact hacc q h1
          · subst h2
            exact isCausal_spec hc
        · exact hacc q hq
      by_cases hc2 : isCausal ij.2 ij.1 sd = true
      · rw [if_pos hc2] at hp
        rcases mem_pairInsert hp with h1 | h2
        · exact hacc1 p h1
        · subst h2
          exact isCausal_spec hc2
      · rw [if_neg hc2] at hp
        exact hacc1 p hp
    exact foldl_preserves
      (fun (acc : List (Int × Int)) =>
        ∀ p ∈ acc, p.2 ∈ lookupSucc sd p.1 ∨ p.1 ∈ lookupSucc sd p.2)
      _ hstep (allOrderedPairs indices) [] (by simp)
  exact hfold (a, b) h

/-- Witness for `C4_pairs_causally_linked` at the counterexample input. -/
theorem C4_pairs_causally_linked_witness :
    (1 : Int) ∈ lookupSucc [((1 : Int), [(2 : Int)]), (2, [])] 2 ∨
    (2 : Int) ∈ lookupSucc [((1 : Int), [(2 : Int)]), (2, [])] 1 :=
  C4_pairs_causally_linked [1, 2] [(1, [2]), (2, [])] 2 1 (by decide)

/-!
## Decomposition search: `find_binary_pattern` / `explore_node`
(binary_patterns copy 2.py, lines 234-296)

`Node.__init__` sets `self.used_nodes = used_nodes if used_nodes else []`:
when the parent's `used_nodes` list is non-empty the child ALIASES it, so
appends made while exploring the child's subtree are visible to the
parent; when it is empty the child gets a fresh list.  The embedding
threads the current VALUE of the node's `used_nodes` list through the
loops and returns its final value to the caller; the caller merges it back
exactly when the list was aliased (parent value non-empty at spawn time),
and discards it when the child got a fresh list (parent value empty).

Python floats: `calculate_acceptance_ratio` divides by `len(original)`
without a guard; a `ZeroDivisionError` on the empty trace is modelled as
`none`.  A `route_acceptance_ratios` dict keyed by consecutive integers is
modelled as the list of its values in insertion order.  The recursion is
driven by fuel; since every child's remaining trace is strictly shorter,
`trace.length + 1` fuel is always enough.  The unused Python parameters
`group_name`, `groups` and `pairs` (shadowed by the locally derived
`causal_pairs`) are omitted.
-/

/-- `calculate_acceptance_ratio(remaining_trace, original_trace)`:
`1 - len(remaining)/len(original)`; `none` models the unguarded
`ZeroDivisionError` on an empty original trace. -/
def calculate_acceptance_ratio (remaining original : List Int) : Option ℚ :=
  if original.length = 0 then none
  else some (1 - (remaining.length : ℚ) / (original.length : ℚ))

/-- Loop state of one `explore_node` activation: the `seen` list, the
`flag`, the current value of the node's `used_nodes` list, and the global
`route_acceptance_ratios` accumulator. -/
structure ExpSt where
  seen : List Int
  flag : Bool
  used : List Int
  routes : List (List (Int × Int) × Option ℚ)

/-- Body of `for pair in causal_pairs` for a fixed trace value. -/
def explorePairStep
    (recur : List Int → List (Int × Int) → List Int →
      List (List (Int × Int) × Option ℚ) →
      List (List (Int × Int) × Option ℚ) × List Int)
    (remaining : List Int) (usedPairs : List (Int × Int)) (value : Int)
    (st : ExpSt) (pair : Int × Int) : ExpSt :=
  if pair.1 == value then
    if st.used.contains pair.1 || st.used.contains pair.2 then st
    else
      let updated := remove_binary_pattern pair remaining
      if updated.length == remaining.length then st
      else
        let nup := usedPairs ++ [pair]
        if st.used.isEmpty then
          let res := recur updated nup [pair.1, pair.2] st.routes
          { st with flag := true, routes := res.1 }
        else
          let res := recur updated nup (st.used ++ [pair.1, pair.2]) st.routes
          { st with flag := true, used := res.2, routes := res.1 }
  else st

/-- Body of `for index, value in enumerate(node.remaining_trace)`;
`flag == 1` makes the remaining iterations no-ops (the Python `break`). -/
def exploreValueStep (pairs : List (Int × Int))
    (recur : List Int → List (Int × Int) → List Int →
      List (List (Int × Int) × Option ℚ) →
      List (List (Int × Int) × Option ℚ) × List Int)
    (remaining : List Int) (usedPairs : List (Int × Int))
    (st : ExpSt) (value : Int) : ExpSt :=
  if st.flag then st
  else if st.used.contains value then st
  else if st.seen.contains value then st
  else
    pairs.foldl (explorePairStep recur remaining usedPairs value)
      { st with seen := st.seen ++ [value] }

/-- One `explore_node` activation, parameterised by the recursive call. -/
def exploreGo (pairs : List (Int × Int)) (orig : List Int)
    (recur : List Int → List (Int × Int) → List Int →
      List (List (Int × Int) × Option ℚ) →
      List (List (Int × Int) × Option ℚ) × List Int)
    (remaining : List Int) (usedPairs : List (Int × Int)) (used : List Int)
    (routes : List (List (Int × Int) × Option ℚ)) :
    List (List (Int × Int) × Option ℚ) × List Int :=
  let fin := remaining.foldl (exploreValueStep pairs recur remaining usedPairs)
    ⟨[], false, used, routes⟩
  if fin.flag then (fin.routes, fin.used)
  else (fin.routes ++ [(usedPairs, calculate_acceptance_ratio remaining orig)],
    fin.used)

/-- `explore_node(node)`, fuel-indexed.  Arguments after the fuel are the
node's `remaining_trace`, `used_pairs` and the current value of its
`used_nodes` list, plus the `route_acceptance_ratios` accumulator; the
result is the updated accumulator and the final value of the node's
`used_nodes` list. -/
def explore_node (pairs : List (Int × Int)) (orig : List Int) :
    Nat → List Int → List (Int × Int) → List Int →
    List (List (Int × Int) × Option ℚ) →
    List (List (Int × Int) × Option ℚ) × List Int
  | 0, _, _, used, routes => (routes, used)
  | fuel + 1, remaining, usedPairs, used, routes =>
    exploreGo pairs orig (explore_node pairs orig fuel) remaining usedPairs used routes

/-- `find_binary_pattern(trace, successors_dict, ...)`: derives the causal
pairs from the distinct trace values (`list(set(trace))`, modelled as
first-occurrence dedup) and explores from the root node, whose
`used_nodes` starts empty. -/
def find_binary_pattern (trace : List Int) (sd : List (Int × List Int)) :
    List (List (Int × Int) × Option ℚ) :=
  let group_indices := trace.dedup
  let causal_pairs := find_causal_pairs group_indices sd
  (explore_node causal_pairs trace (trace.length + 1) trace [] [] []).1

/-- Search-tree reachability: the traces held by nodes reachable from a
root trace, generated by the child-spawning step of `explore_node`
(apply `remove_binary_pattern` with a pair from the candidate list, spawn
only if the residual strictly shrank). -/
inductive searchReaches (pairs : List (Int × Int)) (root : List Int) : List Int → Prop
  | refl : searchReaches pairs root root
  | step (u : List Int) (pair : Int × Int) (hu : searchReaches pairs root u)
      (hp : pair ∈ pairs)
      (hlen : (remove_binary_pattern pair u).length ≠ u.length) :
      searchReaches pairs root (remove_binary_pattern pair u)

/-- C2 counterexample: take a node whose `used_nodes` currently holds
`[9]` (non-empty, as for any node below the root), remaining trace
`[1,2,1,3]`, candidate pairs `(1,2)` and `(1,3)`.  Expanding the first
child `(1,2)` and exploring its subtree appends `1` and `2` to the
node's own `used_nodes` list (the child aliases it), so the sibling
expansion of `(1,3)` observes `[9,1,2]`, is skipped by the
`pair[0] in node.used_nodes` test, and only one route is recorded:
exploring a child does NOT leave the parent's consumed-values set
unchanged. -/
theorem C2_counterexample_child_mutates_parent :
    (explore_node [(1, 2), (1, 3)] [1, 2, 1, 3] 5 [1, 2, 1, 3] [] [9] []).2 =
      [9, 1, 2] ∧
    (explore_node [(1, 2), (1, 3)] [1, 2, 1, 3] 5 [1, 2, 1, 3] [] [9] []).1.length = 1 ∧
    [(9 : Int), 1, 2] ≠ [9] :=
  ⟨by decide, by decide, by decide⟩

/-- C2 (amended): each child is spawned with a consumed-values list equal
to the node's CURRENT list plus the two endpoints of the applied pair.
When the node's consumed set is empty — which holds exactly for the root —
the child receives a fresh list, and recursively exploring the whole
subtree leaves the node's consumed-values set unchanged (still empty);
when the node's set is non-empty the child aliases it, and exploring the
child appends every endpoint consumed in its subtree to the node's set,
which later sibling expansions observe. -/
theorem C2_empty_consumed_set_frame (pairs : List (Int × Int)) (orig : List Int)
    (fuel : Nat) (remaining : List Int) (usedPairs : List (Int × Int))
    (routes : List (List (Int × Int) × Option ℚ)) :
    (explore_node pairs orig fuel remaining usedPairs [] routes).2 = [] := by
  cases fuel with
  | zero => rfl
  | succ n =>
    show (exploreGo pairs orig (explore_node pairs orig n)
      remaining usedPairs [] routes).2 = []
    have hpair : ∀ (value : Int) (st : ExpSt) (pr : Int × Int), st.used = [] →
        (explorePairStep (explore_node pairs orig n) remaining usedPairs value st pr).used
          = [] := by
      intro value st pr hst
      unfold explorePairStep
      dsimp only
      split
      · split
        · exact hst
        · split
          · exact hst
          · split
            · exact hst
            · rename_i hne
              exact absurd (by rw [hst]; rfl) hne
      · exact hst
    have hval : ∀ (st : ExpSt) (v : Int), st.used = [] →
        (exploreValueStep pairs (explore_node pairs orig n) remaining usedPairs st v).used
          = [] := by
      intro st v hst
      unfold exploreValueStep
      split
      · exact hst
      · split
        · exact hst
        · split
          · exact hst
          · exact foldl_preserves (fun (st : ExpSt) => st.used = [])
              _ (hpair v) pairs _ hst
    have hfold : (remaining.foldl
        (exploreValueStep pairs (explore_node pairs orig n) remaining usedPairs)
        ⟨[], false, [], routes⟩).used = [] :=
      foldl_preserves (fun (st : ExpSt) => st.used = []) _ hval remaining _ rfl
    unfold exploreGo
    dsimp only
    split
    · exact hfold
    · exact hfold

/-- C5 counterexample: decomposing `[0,25,0,25]` with `25 ∈ succ(0)`
(the derived candidate set is `{(0,25),(25,0)}`) records exactly one
route, but its applied-pattern list is `[(0,25)]` — a single application
of `remove_binary_pattern` removes BOTH occurrences of the pair at once —
not `[(0,25),(0,25)]` as the claim states. -/
theorem C5_counterexample_single_application :
    (find_binary_pattern [0, 25, 0, 25] [(0, [25]), (25, [])]).map Prod.fst =
      [[(0, 25)]] ∧
    [[((0 : Int), (25 : Int))]] ≠ [[(0, 25), (0, 25)]] :=
  ⟨by decide, by decide⟩

/-- C5 (amended): decomposition of the trace `[0,25,0,25]` with the
successor map `succ(0) = [25]`, `succ(25) = []` produces exactly one
full-coverage route, whose applied-pattern list is `[(0,25)]` (the pair
applied once, removing both occurrences) with acceptance ratio `1`. -/
theorem C5_single_route_full_coverage :
    find_binary_pattern [0, 25, 0, 25] [(0, [25]), (25, [])] =
      [([(0, 25)], some 1)] := by
  have h : find_binary_pattern [0, 25, 0, 25] [(0, [25]), (25, [])] =
      [([(0, 25)], calculate_acceptance_ratio [] [0, 25, 0, 25])] := rfl
  rw [h]
  norm_num [calculate_acceptance_ratio]

/-- C6: the residual returned by pattern removal — both
`remove_pattern_from_trace` and `remove_binary_pattern` — is a
subsequence of the input trace, and consequently the remaining trace held
at every node of the decomposition search is a subsequence of the
original trace. -/
theorem C6_residual_subsequence :
    (∀ (trace pattern : List Int),
      (remove_pattern_from_trace trace pattern).Sublist trace) ∧
    (∀ (pair : Int × Int) (trace : List Int),
      (remove_binary_pattern pair trace).Sublist trace) ∧
    (∀ (pairs : List (Int × Int)) (root t : List Int),
      searchReaches pairs root t → t.Sublist root) := by
  refine ⟨remove_pattern_from_trace_sublist, remove_binary_pattern_sublist, ?_⟩
  intro pairs root t h
  induction h with
  | refl => exact List.Sublist.refl root
  | step u pair hu hp hlen ih => exact (remove_binary_pattern_sublist pair u).trans ih

/-- Witness for `C6_residual_subsequence` at a concrete search step. -/
theorem C6_residual_subsequence_witness :
    (remove_binary_pattern (0, 25) [0, 25, 0, 25]).Sublist [0, 25, 0, 25] :=
  C6_residual_subsequence.2.2 [(0, 25)] [0, 25, 0, 25] _
    (searchReaches.step [0, 25, 0, 25] (0, 25) searchReaches.refl
      (by decide) (by decide))

/-- A recorded route whose score is defined and lies in `[0, 1]`. -/
def RouteScoreOk (e : List (Int × Int) × Option ℚ) : Prop :=
  ∃ r, e.2 = some r ∧ 0 ≤ r ∧ r ≤ 1

theorem calc_ratio_some_mem (rem orig : List Int) (h1 : orig ≠ [])
    (h2 : rem.length ≤ orig.length) :
    ∃ r, calculate_acceptance_ratio rem orig = some r ∧ 0 ≤ r ∧ r ≤ 1 := by
  unfold calculate_acceptance_ratio
  have hlen : orig.length ≠ 0 := by simpa [List.length_eq_zero] using h1
  rw [if_neg hlen]
  have hpos : (0 : ℚ) < orig.length := by
    have := Nat.pos_of_ne_zero hlen
    exact_mod_cast this
  refine ⟨_, rfl, ?_, ?_⟩
  · have hle : (rem.length : ℚ) / orig.length ≤ 1 := by
      rw [div_le_one hpos]
      exact_mod_cast h2
    linarith
  · have hx : (0 : ℚ) ≤ (rem.length : ℚ) / orig.length := by positivity
    linarith

/-- Every route the search records scores in `[0, 1]`, provided the
original trace is non-empty and the node's remaining trace is no longer
than it (as holds for all reachable nodes). -/
theorem explore_node_routes_ok (pairs : List (Int × Int)) (orig : List Int)
    (horig : orig ≠ []) :
    ∀ (fuel : Nat) (rem : List Int) (up : List (Int × Int)) (used : List Int)
      (routes : List (List (Int × Int) × Option ℚ)),
      rem.length ≤ orig.length →
      (∀ e ∈ routes, RouteScoreOk e) →
      ∀ e ∈ (explore_node pairs orig fuel rem up used routes).1, RouteScoreOk e := by
  intro fuel
  induction fuel with
  | zero => intro rem up used routes _ hr e he; exact hr e he
  | succ n ih =>
    intro rem up used routes hlen hr
    show ∀ e ∈ (exploreGo pairs orig (explore_node pairs orig n)
      rem up used routes).1, RouteScoreOk e
    have hpair : ∀ (value : Int) (st : ExpSt) (pr : Int × Int),
        (∀ e ∈ st.routes, RouteScoreOk e) →
        ∀ e ∈ (explorePairStep (explore_node pairs orig n) rem up value st pr).routes,
          RouteScoreOk e := by
      intro value st pr hst
      unfold explorePairStep
      dsimp only
      split
      · split
        · exact hst
        · split
          · exact hst
          · have hlen2 : (remove_binary_pattern pr rem).length ≤ orig.length :=
              Nat.le_trans (remove_binary_pattern_sublist pr rem).length_le hlen
            split
            · exact ih (remove_binary_pattern pr rem) (up ++ [pr]) [pr.1, pr.2]
                st.routes hlen2 hst
            · exact ih (remove_binary_pattern pr rem) (up ++ [pr])
                (st.used ++ [pr.1, pr.2]) st.routes hlen2 hst
      · exact hst
    have hval : ∀ (st : ExpSt) (v : Int),
        (∀ e ∈ st.routes, RouteScoreOk e) →
        ∀ e ∈ (exploreValueStep pairs (explore_node pairs orig n) rem up st v).routes,
          RouteScoreOk e := by
      intro st v hst
      unfold exploreValueStep
      split
      · exact hst
      · split
        · exact hst
        · split
          · exact hst
          · exact foldl_preserves
              (fun (st : ExpSt) => ∀ e ∈ st.routes, RouteScoreOk e)
              _ (hpair v) pairs _ hst
    have hfold := foldl_preserves
      (fun (st : ExpSt) => ∀ e ∈ st.routes, RouteScoreOk e)
      _ hval rem ⟨[], false, used, routes⟩ hr
    unfold exploreGo
    dsimp only
    split
    · exact hfold
    · intro e he
      rcases List.mem_append.mp he with h1 | h2
      · exact hfold e h1
      · rw [List.mem_singleton] at h2
        subst h2
        exact calc_ratio_some_mem rem orig horig hlen

/-- C10: the leaf score `1 - len(remainingTrace)/len(originalTrace)` is
computed with an unguarded division.  For a non-empty input trace the
division is defined and every recorded route score lies in `[0, 1]`
(every node's remaining trace being no longer than the original); for the
empty input trace the expression is undefined (`ZeroDivisionError`,
modelled as `none`), so non-emptiness is an implicit precondition of the
search. -/
theorem C10_score_safety :
    (∀ rem orig : List Int, orig ≠ [] → rem.length ≤ orig.length →
      ∃ r, calculate_acceptance_ratio rem orig = some r ∧ 0 ≤ r ∧ r ≤ 1) ∧
    (∀ rem : List Int, calculate_acceptance_ratio rem [] = none) ∧
    (∀ (pairs : List (Int × Int)) (orig : List Int) (fuel : Nat) (rem : List Int)
      (up : List (Int × Int)) (used : List Int)
      (routes : List (List (Int × Int) × Option ℚ)),
      orig ≠ [] → rem.length ≤ orig.length → (∀ e ∈ routes, RouteScoreOk e) →
      ∀ e ∈ (explore_node pairs orig fuel rem up used routes).1, RouteScoreOk e) := by
  refine ⟨calc_ratio_some_mem, ?_, ?_⟩
  · intro rem; rfl
  · intro pairs orig fuel rem up used routes h1 h2 h3
    exact explore_node_routes_ok pairs orig h1 fuel rem up used routes h2 h3

/-- Witness for `C10_score_safety` at concrete inputs. -/
theorem C10_score_safety_witness :
    (∃ r, calculate_acceptance_ratio [0] [0, 25] = some r ∧ 0 ≤ r ∧ r ≤ 1) ∧
    calculate_acceptance_ratio [0] [] = none ∧
    (∀ e ∈ (explore_node [((0 : Int), (25 : Int))] [0, 25] 3 [0, 25] [] [] []).1,
      RouteScoreOk e) :=
  ⟨C10_score_safety.1 [0] [0, 25] (by decide) (by decide),
   C10_score_safety.2.1 [0],
   C10_score_safety.2.2 [(0, 25)] [0, 25] 3 [0, 25] [] [] []
     (by decide) (by decide) (by simp)⟩

/-!
## Causality graph: `construct_causality_graph(messages, sections)`
(functions.py lines 93-110, identical copy in binary_patterns copy 2.py)

A message occurrence is a parsed non-empty definition line
`(index, src, dest)`; `sections` is the list of sections of parsed lines
(the same lines `read_messages_from_file` parses into `messages`, so
`messages = sections.join`).  The torch `Data(edge_index=...)` return
value is visualization-only and carries the same edge pairs as the
successor map; it is not modelled separately. -/

structure Msg where
  idx : Int
  src : String
  dest : String
  deriving DecidableEq, Repr

/-- `construct_causality_graph`: initial nodes from `sections[0]`,
terminating nodes from `sections[-1]`, and for every outer occurrence of
an index, one successor entry per matching inner occurrence
(`dest == s and index not in terminating_nodes and _ not in initial_nodes`). -/
def construct_causality_graph (messages : List Msg) (sections : List (List Msg)) :
    List Int × List Int × (Int → List Int) :=
  let initial_nodes := sections.headI.map Msg.idx
  let terminating_nodes := (sections.getLastD []).map Msg.idx
  (initial_nodes, terminating_nodes,
    fun n =>
      (messages.filter (fun m => m.idx == n)).flatMap (fun m =>
        (messages.filter (fun m2 =>
          m.dest == m2.src && !(decide (m.idx ∈ terminating_nodes)) &&
            !(decide (m2.idx ∈ initial_nodes)))).map Msg.idx))

/-- C7: `construct_causality_graph` returns `initialSet` equal to the
indices listed in the first section and `terminatingSet` equal to the
indices listed in the last section, and its successor map contains `j` in
`succ(i)` if and only if some occurrences of `i` and `j` satisfy
`dest(i) == src(j)`, `i ∉ terminatingSet` and `j ∉ initialSet` — for
every ordered pair of message occurrences, including `i == j` (self-loops
are not filtered). -/
theorem C7_causality_graph_spec (messages : List Msg) (sections : List (List Msg))
    (_hs : sections ≠ []) :
    (∀ x, x ∈ (construct_causality_graph messages sections).1 ↔
      x ∈ sections.headI.map Msg.idx) ∧
    (∀ x, x ∈ (construct_causality_graph messages sections).2.1 ↔
      x ∈ (sections.getLastD []).map Msg.idx) ∧
    (∀ i j : Int, j ∈ (construct_causality_graph messages sections).2.2 i ↔
      ∃ m ∈ messages, m.idx = i ∧ ∃ m2 ∈ messages, m2.idx = j ∧
        m.dest = m2.src ∧ i ∉ (sections.getLastD []).map Msg.idx ∧
        j ∉ sections.headI.map Msg.idx) := by
  refine ⟨fun x => Iff.rfl, fun x => Iff.rfl, ?_⟩
  intro i j
  unfold construct_causality_graph
  dsimp only
  rw [List.mem_flatMap]
  constructor
  · rintro ⟨m, hm, hj⟩
    rw [List.mem_filter] at hm
    rw [beq_iff_eq] at hm
    rw [List.mem_map] at hj
    obtain ⟨m2, hm2, hjidx⟩ := hj
    rw [List.mem_filter] at hm2
    have hconds := hm2.2
    rw [Bool.and_eq_true, Bool.and_eq_true] at hconds
    obtain ⟨⟨hdest, hterm⟩, hinit⟩ := hconds
    rw [beq_iff_eq] at hdest
    rw [Bool.not_eq_true', decide_eq_false_iff_not] at hterm hinit
    refine ⟨m, hm.1, hm.2, m2, hm2.1, hjidx, hdest, ?_, ?_⟩
    · rw [← hm.2]; exact hterm
    · rw [← hjidx]; exact hinit
  · rintro ⟨m, hm, hidx, m2, hm2, hjidx, hdest, hterm, hinit⟩
    refine ⟨m, ?_, ?_⟩
    · rw [List.mem_filter, beq_iff_eq]
      exact ⟨hm, hidx⟩
    · rw [List.mem_map]
      refine ⟨m2, ?_, hjidx⟩
      rw [List.mem_filter]
      refine ⟨hm2, ?_⟩
      rw [Bool.and_eq_true, Bool.and_eq_true]
      refine ⟨⟨?_, ?_⟩, ?_⟩
      · rw [beq_iff_eq]; exact hdest
      · rw [Bool.not_eq_true', decide_eq_false_iff_not]
        rw [hidx]; exact hterm
      · rw [Bool.not_eq_true', decide_eq_false_iff_not]
        rw [hjidx]; exact hinit

/-- Witness for `C7_causality_graph_spec` on a two-message table. -/
theorem C7_causality_graph_spec_witness :
    (∀ x, x ∈ (construct_causality_graph
        [⟨0, "cpu", "cache"⟩, ⟨25, "cache", "cpu"⟩]
        [[⟨0, "cpu", "cache"⟩], [⟨25, "cache", "cpu"⟩]]).1 ↔
      x ∈ ([[(⟨0, "cpu", "cache"⟩ : Msg)], [⟨25, "cache", "cpu"⟩]] :
        List (List Msg)).headI.map Msg.idx) ∧
    (∀ x, x ∈ (construct_causality_graph
        [⟨0, "cpu", "cache"⟩, ⟨25, "cache", "cpu"⟩]
        [[⟨0, "cpu", "cache"⟩], [⟨25, "cache", "cpu"⟩]]).2.1 ↔
      x ∈ (([[(⟨0, "cpu", "cache"⟩ : Msg)], [⟨25, "cache", "cpu"⟩]] :
        List (List Msg)).getLastD []).map Msg.idx) ∧
    (∀ i j : Int, j ∈ (construct_causality_graph
        [⟨0, "cpu", "cache"⟩, ⟨25, "cache", "cpu"⟩]
        [[⟨0, "cpu", "cache"⟩], [⟨25, "cache", "cpu"⟩]]).2.2 i ↔
      ∃ m ∈ [(⟨0, "cpu", "cache"⟩ : Msg), ⟨25, "cache", "cpu"⟩], m.idx = i ∧
        ∃ m2 ∈ [(⟨0, "cpu", "cache"⟩ : Msg), ⟨25, "cache", "cpu"⟩], m2.idx = j ∧
          m.dest = m2.src ∧
          i ∉ (([[(⟨0, "cpu", "cache"⟩ : Msg)], [⟨25, "cache", "cpu"⟩]] :
            List (List Msg)).getLastD []).map Msg.idx ∧
          j ∉ ([[(⟨0, "cpu", "cache"⟩ : Msg)], [⟨25, "cache", "cpu"⟩]] :
            List (List Msg)).headI.map Msg.idx) :=
  C7_causality_graph_spec [⟨0, "cpu", "cache"⟩, ⟨25, "cache", "cpu"⟩]
    [[⟨0, "cpu", "cache"⟩], [⟨25, "cache", "cpu"⟩]] (by simp)

/-!
## Loaders: `extract_groups_from_msg_file` and `read_trace_from_file`
(functions.py lines 36-58 and 124-127)

File I/O being external, the inputs are the raw definition lines and the
whitespace-split trace tokens, each modelled as a `List Char` so that
Python string primitives (`strip`, `split(':')`, `startswith('#')`,
`int(...)`) can be embedded as kernel-evaluable functions.  `int(tok)`
accepts an optional sign followed by one or more decimal digits (the
exotic additions Python also tolerates, digit-group underscores and
non-ASCII digits, are not modelled; all inputs used here are plain) and raises
`ValueError` otherwise; the uncaught exception is modelled with
`Except String`. -/

def isSpaceChar (c : Char) : Bool :=
  c == ' ' || c == '\t' || c == '\n' || c == '\r'

/-- Python `str.strip()`. -/
def trimChars (l : List Char) : List Char :=
  ((l.dropWhile isSpaceChar).reverse.dropWhile isSpaceChar).reverse

/-- Python `str.split(':')`: `n` separators yield `n + 1` parts. -/
def splitOnColon : List Char → List (List Char)
  | [] => [[]]
  | c :: cs =>
    let rest := splitOnColon cs
    if c == ':' then [] :: rest
    else (c :: rest.headI) :: rest.tail

def startsWithHash : List Char → Bool
  | [] => false
  | c :: _ => c == '#'

def isDigitChar (c : Char) : Bool := decide ('0' ≤ c ∧ c ≤ '9')

def digitVal (c : Char) : Int := (c.toNat : Int) - 48

def parseNatAux (acc : Int) : List Char → Option Int
  | [] => some acc
  | c :: cs => if isDigitChar c then parseNatAux (acc * 10 + digitVal c) cs else none

/-- Python `int(token)` on an already stripped token. -/
def parseIntChars : List Char → Option Int
  | [] => none
  | c :: cs =>
    if c == '-' then
      match cs with
      | [] => none
      | _ :: _ => Option.map Int.neg (parseNatAux 0 cs)
    else if c == '+' then
      match cs with
      | [] => none
      | _ :: _ => parseNatAux 0 cs
    else
      if isDigitChar c then parseNatAux (digitVal c) cs else none

/-- `read_trace_from_file`: `[int(index) for index in trace]` — any
non-integer token raises `ValueError` (nothing is skipped). -/
def read_trace_from_file (tokens : List (List Char)) : Except String (List Int) :=
  tokens.mapM (fun tok =>
    match parseIntChars tok with
    | some n => Except.ok n
    | none => Except.error "invalid literal for int")

/-- Lexicographic order on char lists (Python string `<`). -/
def listCharLt : List Char → List Char → Bool
  | [], [] => false
  | [], _ :: _ => true
  | _ :: _, [] => false
  | a :: as, b :: bs => if a < b then true else if b < a then false else listCharLt as bs

/-- `tuple(sorted((src, dest)))`. -/
def groupKey (src dest : List Char) : List Char × List Char :=
  if listCharLt dest src then (dest, src) else (src, dest)

/-- `group_indices[key].append(int(index))`, creating the key on first use
(Python dicts preserve insertion order). -/
def dictAppend (d : List ((List Char × List Char) × List Int))
    (key : List Char × List Char) (n : Int) :
    List ((List Char × List Char) × List Int) :=
  match d with
  | [] => [(key, [n])]
  | (k, v) :: rest =>
    if k == key then (k, v ++ [n]) :: rest else (k, v) :: dictAppend rest key n

/-- One line of the `extract_groups_from_msg_file` loop: skip comments,
blank lines and lines that do not split into exactly 4 fields; otherwise
parse the index — `int(index)` raises on a malformed index field. -/
def groupLineStep (acc : List ((List Char × List Char) × List Int))
    (rawLine : List Char) :
    Except String (List ((List Char × List Char) × List Int)) :=
  let line := trimChars rawLine
  if startsWithHash line then Except.ok acc
  else if line.isEmpty then Except.ok acc
  else
    let parts := (splitOnColon line).map trimChars
    if parts.length == 4 then
      match parts with
      | idxs :: src :: dest :: _ =>
        match parseIntChars idxs with
        | some n => Except.ok (dictAppend acc (groupKey src dest) n)
        | none => Except.error "ValueError"
      | _ => Except.ok acc
    else Except.ok acc

def insertSortedInt (n : Int) : List Int → List Int
  | [] => [n]
  | x :: xs => if n ≤ x then n :: x :: xs else x :: insertSortedInt n xs

/-- Python `sorted` on a list of ints (insertion sort; extensionally the
sorted permutation). -/
def sortInts : List Int → List Int
  | [] => []
  | x :: xs => insertSortedInt x (sortInts xs)

def listIntLt : List Int → List Int → Bool
  | [], [] => false
  | [], _ :: _ => true
  | _ :: _, [] => false
  | a :: as, b :: bs => if a < b then true else if b < a then false else listIntLt as bs

/-- Python tuple comparison on `(src, dest, indices)`. -/
def groupLtB (g1 g2 : List Char × List Char × List Int) : Bool :=
  listCharLt g1.1 g2.1 ||
    (g1.1 == g2.1 && (listCharLt g1.2.1 g2.2.1 ||
      (g1.2.1 == g2.2.1 && listIntLt g1.2.2 g2.2.2)))

/-- Python `set.add` on group triples. -/
def setInsertGroup (s : List (List Char × List Char × List Int))
    (g : List Char × List Char × List Int) :
    List (List Char × List Char × List Int) :=
  if s.contains g then s else s ++ [g]

def insertSortedGroup (g : List Char × List Char × List Int) :
    List (List Char × List Char × List Int) →
    List (List Char × List Char × List Int)
  | [] => [g]
  | x :: xs => if groupLtB x g then x :: insertSortedGroup g xs else g :: x :: xs

/-- Python `sorted` on the group set (the order is a strict total order on
the deduplicated triples, so any sort yields the Python result). -/
def sortGroups : List (List Char × List Char × List Int) →
    List (List Char × List Char × List Int)
  | [] => []
  | x :: xs => insertSortedGroup x (sortGroups xs)

/-- `extract_groups_from_msg_file(file)` over the file's raw lines. -/
def extract_groups_from_msg_file (lines : List (List Char)) :
    Except String (List (List Char × List Char × List Int)) := do
  let d ← lines.foldlM groupLineStep []
  let groups := d.foldl
    (fun s kv => setInsertGroup s (kv.1.1, kv.1.2, sortInts kv.2)) []
  return sortGroups groups

/-- A definition line that `extract_groups_from_msg_file` survives:
a comment, a blank line, a line without exactly 4 fields, or a 4-field
line whose index field parses as an integer. -/
def groupLineOk (rawLine : List Char) : Bool :=
  let line := trimChars rawLine
  startsWithHash line || line.isEmpty ||
    (let parts := (splitOnColon line).map trimChars
     !(parts.length == 4) || (parseIntChars parts.headI).isSome)

theorem groupLineStep_ok {l : List Char} (hok : groupLineOk l = true)
    (acc : List ((List Char × List Char) × List Int)) :
    ∃ acc2, groupLineStep acc l = Except.ok acc2 := by
  unfold groupLineStep
  dsimp only
  by_cases h1 : startsWithHash (trimChars l) = true
  · rw [if_pos h1]
    exact ⟨acc, rfl⟩
  · rw [if_neg h1]
    by_cases h2 : (trimChars l).isEmpty = true
    · rw [if_pos h2]
      exact ⟨acc, rfl⟩
    · rw [if_neg h2]
      by_cases h3 : (((splitOnColon (trimChars l)).map trimChars).length == 4) = true
      · rw [if_pos h3]
        have ha : startsWithHash (trimChars l) = false := by
          cases hc : startsWithHash (trimChars l)
          · rfl
          · exact absurd hc h1
        have hb : (trimChars l).isEmpty = false := by
          cases hc : (trimChars l).isEmpty
          · rfl
          · exact absurd hc h2
        have hok2 : (parseIntChars
            ((splitOnColon (trimChars l)).map trimChars).headI).isSome = true := by
          unfold groupLineOk at hok
          dsimp only at hok
          rw [ha, hb, h3] at hok
          simpa using hok
        cases hp : (splitOnColon (trimChars l)).map trimChars with
        | nil => rw [hp] at h3; simp at h3
        | cons p0 rest =>
          rw [hp] at hok2
          have hsome : ∃ n, parseIntChars p0 = some n := by
            rw [Option.isSome_iff_exists] at hok2
            simpa using hok2
          obtain ⟨n, hn⟩ := hsome
          cases rest with
          | nil => rw [hp] at h3; simp at h3
          | cons p1 rest2 =>
            cases rest2 with
            | nil => rw [hp] at h3; simp at h3
            | cons p2 rest3 =>
              dsimp only
              rw [hn]
              exact ⟨_, rfl⟩
      · rw [if_neg h3]
        exact ⟨acc, rfl⟩

theorem foldlM_groupLine_ok :
    ∀ (lines : List (List Char)), (∀ l ∈ lines, groupLineOk l = true) →
      ∀ acc, ∃ d, List.foldlM groupLineStep acc lines = Except.ok d := by
  intro lines
  induction lines with
  | nil => intro _ acc; exact ⟨acc, rfl⟩
  | cons x xs ih =>
    intro hok acc
    obtain ⟨acc2, hacc2⟩ := groupLineStep_ok (hok x (List.mem_cons_self x xs)) acc
    obtain ⟨d, hd⟩ := ih (fun l hl => hok l (List.mem_cons_of_mem x hl)) acc2
    refine ⟨d, ?_⟩
    rw [List.foldlM_cons, hacc2]
    simpa using hd

theorem read_trace_ok :
    ∀ (toks : List (List Char)), (∀ t ∈ toks, (parseIntChars t).isSome = true) →
      ∃ tr, read_trace_from_file toks = Except.ok tr := by
  intro toks
  induction toks with
  | nil => intro _; exact ⟨[], rfl⟩
  | cons t ts ih =>
    intro hok
    have ht := hok t (List.mem_cons_self t ts)
    rw [Option.isSome_iff_exists] at ht
    obtain ⟨n, hn⟩ := ht
    obtain ⟨tr, htr⟩ := ih (fun x hx => hok x (List.mem_cons_of_mem t hx))
    refine ⟨n :: tr, ?_⟩
    unfold read_trace_from_file at htr ⊢
    rw [List.mapM_cons, hn]
    simp only [htr]
    rfl

/-- C8 counterexample: malformed input IS fatal — a non-integer trace
token makes `read_trace_from_file` raise `ValueError` (no token is
skipped), and a 4-field definition line with a non-integer index field
makes `extract_groups_from_msg_file` raise `ValueError` (only comments,
blanks and wrong-field-count lines are skipped). -/
theorem C8_counterexample_malformed_is_fatal :
    read_trace_from_file [['1'], ['x'], ['3']] =
      Except.error "invalid literal for int" ∧
    extract_groups_from_msg_file [['z', ':', 'a', ':', 'b', ':', 'q']] =
      Except.error "ValueError" :=
  ⟨rfl, rfl⟩

/-- C8 (amended): group extraction skips comment lines, blank lines and
lines that do not split into exactly 4 fields, returning a result for the
remaining input; but a 4-field line whose index is not an integer raises.
Trace reading returns a result when every token is an integer and raises
on any non-integer token rather than skipping it. -/
theorem C8_malformed_line_handling :
    (∀ lines : List (List Char), (∀ l ∈ lines, groupLineOk l = true) →
      ∃ gs, extract_groups_from_msg_file lines = Except.ok gs) ∧
    (∀ toks : List (List Char), (∀ t ∈ toks, (parseIntChars t).isSome = true) →
      ∃ tr, read_trace_from_file toks = Except.ok tr) ∧
    extract_groups_from_msg_file [['g'], ['#', 'c'], ['1', ':', 'a', ':', 'b', ':', 'q']] =
      Except.ok [(['a'], ['b'], [1])] := by
  refine ⟨?_, read_trace_ok, rfl⟩
  intro lines h
  obtain ⟨d, hd⟩ := foldlM_groupLine_ok lines h []
  refine ⟨sortGroups (d.foldl
    (fun s kv => setInsertGroup s (kv.1.1, kv.1.2, sortInts kv.2)) []), ?_⟩
  unfold extract_groups_from_msg_file
  rw [hd]
  rfl

/-- Witness for `C8_malformed_line_handling` at concrete inputs. -/
theorem C8_malformed_line_handling_witness :
    (∃ gs, extract_groups_from_msg_file
      [['1', ':', 'a', ':', 'b', ':', 'q'], ['j', 'u', 'n', 'k']] =
        Except.ok gs) ∧
    (∃ tr, read_trace_from_file [['4', '2']] = Except.ok tr) :=
  ⟨C8_malformed_line_handling.1
      [['1', ':', 'a', ':', 'b', ':', 'q'], ['j', 'u', 'n', 'k']] (by decide),
    C8_malformed_line_handling.2.1 [['4', '2']] (by decide)⟩

/-!
## N-gram scorer: `find_acceptance_ratios(trace, patterns)`
(functions.py lines 145-235)

One pass = the `for pointer_index, pointer in enumerate(pointers)` loop:
`used_numbers` is reset empty, `remaining_trace` restored to the original
trace, and each pattern is either skipped (some element already used this
pass; `pattern_skip_count` incremented once per such element, the pass
aborted outright once the count exceeds 15) or scored by removal and
Counter orphan counting, then marked for removal from `pointers`.
The `while pointers:` loop repeats passes on the surviving pointers;
`patterns.length` passes always suffice (the termination theorem), so the
embedding runs the loop on that much fuel, `none` marking exhaustion. -/

structure PassState where
  used : List Int
  remaining : List Int
  toRemove : List Nat
  ratios : List (List Int × ℚ)
  skipCount : Nat
  broke : Bool

def passStep (patterns : List (List Int)) (st : PassState) (pointer : Nat) :
    PassState :=
  if st.broke then st
  else
    let pattern := patterns.getD pointer []
    let badCount := (pattern.filter (fun num => st.used.contains num)).length
    if badCount != 0 then
      let newCount := st.skipCount + badCount
      if newCount ≤ 15 then { st with skipCount := newCount }
      else { st with skipCount := newCount, broke := true }
    else
      let updated := remove_pattern_from_trace st.remaining pattern
      let orphans := (pattern.map (fun num => updated.count num)).sum
      let original := (pattern.map (fun num => st.remaining.count num)).sum
      let ratio : ℚ :=
        if original ≠ 0 then 1 - (orphans : ℚ) / (original : ℚ) else 0
      { used := st.used ++ pattern, remaining := updated,
        toRemove := st.toRemove ++ [pointer],
        ratios := st.ratios ++ [(pattern, ratio)],
        skipCount := st.skipCount, broke := false }

/-- One pass over the current pointer list. -/
def runPass (patterns : List (List Int)) (trace : List Int)
    (pointers : List Nat) (priorRatios : List (List Int × ℚ)) : PassState :=
  pointers.foldl (passStep patterns) ⟨[], trace, [], priorRatios, 0, false⟩

/-- The `while pointers:` loop, fuel-indexed. -/
def findRatiosLoop (patterns : List (List Int)) (trace : List Int) :
    Nat → List Nat → List (List Int × ℚ) → Option (List (List Int × ℚ))
  | 0, pointers, acc => if pointers.isEmpty then some acc else none
  | fuel + 1, pointers, acc =>
    if pointers.isEmpty then some acc
    else
      let st := runPass patterns trace pointers acc
      findRatiosLoop patterns trace fuel
        (pointers.filter (fun p => decide (p ∉ st.toRemove))) st.ratios

/-- `find_acceptance_ratios(trace, patterns)` with fuel
`patterns.length`, which the termination theorem shows is enough. -/
def find_acceptance_ratios (trace : List Int) (patterns : List (List Int)) :
    Option (List (List Int × ℚ)) :=
  findRatiosLoop patterns trace patterns.length
    (List.range patterns.length) []

theorem passStep_toRemove_mono (patterns : List (List Int)) (st : PassState)
    (pointer : Nat) {x : Nat} (hx : x ∈ st.toRemove) :
    x ∈ (passStep patterns st pointer).toRemove := by
  unfold passStep
  dsimp only
  split
  · exact hx
  · split
    · split
      · exact hx
      · exact hx
    · exact List.mem_append_left _ hx

/-- The first pattern of a pass is never skipped: `used_numbers` is empty
at the start of the pass, so it is scored and marked for removal. -/
theorem runPass_head_removed (patterns : List (List Int)) (trace : List Int)
    (p : Nat) (rest : List Nat) (acc : List (List Int × ℚ)) :
    p ∈ (runPass patterns trace (p :: rest) acc).toRemove := by
  unfold runPass
  rw [List.foldl_cons]
  have hfirst : p ∈ (passStep patterns ⟨[], trace, [], acc, 0, false⟩ p).toRemove := by
    unfold passStep
    dsimp only
    rw [if_neg (by simp)]
    have hbad : ((patterns.getD p []).filter
        (fun num => ([] : List Int).contains num)).length = 0 := by
      simp
    rw [if_neg (by simp [hbad])]
    simp
  exact foldl_preserves (fun (st : PassState) => p ∈ st.toRemove)
    (passStep patterns) (fun st x h => passStep_toRemove_mono patterns st x h)
    rest _ hfirst

/-- Each pass strictly shrinks the pointer list. -/
theorem pass_pointers_shrink (patterns : List (List Int)) (trace : List Int)
    (p : Nat) (rest : List Nat) (acc : List (List Int × ℚ)) :
    ((p :: rest).filter (fun q =>
      decide (q ∉ (runPass patterns trace (p :: rest) acc).toRemove))).length <
      (p :: rest).length := by
  rw [List.length_filter_lt_length_iff_exists]
  refine ⟨p, List.mem_cons_self p rest, ?_⟩
  simp [runPass_head_removed patterns trace p rest acc]

theorem findRatiosLoop_total (patterns : List (List Int)) (trace : List Int) :
    ∀ (fuel : Nat) (pointers : List Nat) (acc : List (List Int × ℚ)),
      pointers.length ≤ fuel →
      ∃ r, findRatiosLoop patterns trace fuel pointers acc = some r := by
  intro fuel
  induction fuel with
  | zero =>
    intro pointers acc hlen
    have : pointers = [] := List.length_eq_zero.mp (Nat.le_zero.mp hlen)
    subst this
    exact ⟨acc, rfl⟩
  | succ n ih =>
    intro pointers acc hlen
    cases pointers with
    | nil => exact ⟨acc, rfl⟩
    | cons p rest =>
      have hshrink := pass_pointers_shrink patterns trace p rest acc
      have hle : ((p :: rest).filter (fun q =>
          decide (q ∉ (runPass patterns trace (p :: rest) acc).toRemove))).length ≤ n := by
        rw [List.length_cons] at hshrink hlen
        omega
      obtain ⟨r, hr⟩ := ih _ (runPass patterns trace (p :: rest) acc).ratios hle
      refine ⟨r, ?_⟩
      show (if (p :: rest).isEmpty then some acc
        else findRatiosLoop patterns trace n
          ((p :: rest).filter (fun q =>
            decide (q ∉ (runPass patterns trace (p :: rest) acc).toRemove)))
          (runPass patterns trace (p :: rest) acc).ratios) = some r
      rw [if_neg (by simp)]
      exact hr

/-- C9: the N-gram scorer terminates on every finite trace and pattern
list: the first still-pending pattern of each pass is never skipped
(`used_numbers` starts empty), so every pass scores and permanently
removes at least that pattern, the pointer list strictly shrinks, and
`patterns.length` passes always complete the loop. -/
theorem C9_scorer_terminates :
    (∀ (trace : List Int) (patterns : List (List Int)),
      ∃ r, find_acceptance_ratios trace patterns = some r) ∧
    (∀ (patterns : List (List Int)) (trace : List Int) (p : Nat)
      (rest : List Nat) (acc : List (List Int × ℚ)),
      p ∈ (runPass patterns trace (p :: rest) acc).toRemove ∧
      ((p :: rest).filter (fun q =>
        decide (q ∉ (runPass patterns trace (p :: rest) acc).toRemove))).length <
        (p :: rest).length) := by
  constructor
  · intro trace patterns
    exact findRatiosLoop_total patterns trace patterns.length
      (List.range patterns.length) [] (by rw [List.length_range])
  · intro patterns trace p rest acc
    exact ⟨runPass_head_removed patterns trace p rest acc,
      pass_pointers_shrink patterns trace p rest acc⟩

/-- Witness for `C1_matcher_shrinks_iff_occurrence`: spec scenarios 2
(trace `[0,0,25]`, one occurrence of `(0,25)`, residual shrinks) and 3
(trace `[1,2,3]`, absent pattern `(5,6)`, residual unchanged). -/
theorem C1_matcher_shrinks_iff_occurrence_witness :
    (remove_pattern_from_trace [0, 0, 25] [0, 25]).length <
      ([0, 0, 25] : List Int).length ∧
    remove_pattern_from_trace [1, 2, 3] [5, 6] = [1, 2, 3] :=
  ⟨(C1_matcher_shrinks_iff_occurrence [0, 0, 25] [0, 25] (by decide)).1 (by decide),
   (C1_matcher_shrinks_iff_occurrence [1, 2, 3] [5, 6] (by decide)).2 (by decide)⟩
